import Mathlib

/-!
# Verification of the barista-bot SGF parser and renderer core

A shallow embedding of `src/parser/parser.go`: the line parser
(`ParseSGFLine` with its regex helpers), the file loader (`LoadProblems`)
and the board renderer (`RenderProblem` with `sgfToIndex` and
`sanitizeFilename`).  Go strings are modelled as lists of characters;
where the Go code does byte arithmetic (`len`, `s[0] - 'a'`) the model
counts UTF-8 bytes explicitly.  The Go regexes are modelled by explicit
leftmost-match scanners with the same semantics (Go's regexp engine is
leftmost-first with greedy repetition).
-/

deriving instance DecidableEq for Except

namespace Barista

/-- A Go string, modelled as its list of characters. -/
abbrev Str : Type := List Char

/-- Mirrors `GoProblem` (parser.go): a problem name plus the black and
white stone coordinate lists. -/
structure GoProblem where
  Name : Str
  Black : List Str
  White : List Str
deriving DecidableEq

/-- The character class `[a-s]` of `blackRunRe` / `whiteRunRe` / `coordRe`:
code points 0x61 (a) through 0x73 (s). -/
def isCoordChar (c : Char) : Bool := decide (97 ≤ c.toNat ∧ c.toNat ≤ 115)

/-- The greedy run `(?:\[[a-s]{2}\])+` of `blackRunRe` / `whiteRunRe`,
combined with the per-group capture of `coordRe` that `extractCoords`
applies to the captured run: the coordinates of the maximal contiguous
sequence of bracketed two-character groups at the head of the input. -/
def parseGroups : Str → List Str
  | a :: x :: y :: b :: rest =>
      if a = '[' ∧ b = ']' ∧ isCoordChar x ∧ isCoordChar y then
        [x, y] :: parseGroups rest
      else []
  | _ => []

/-- Leftmost-match search: try a matcher at every start position of the
input, earliest position first, as Go `FindStringSubmatch` does. -/
def reFind {α : Type} (f : Str → Option α) : Str → Option α
  | [] => f []
  | c :: rest =>
      match f (c :: rest) with
      | some a => some a
      | none => reFind f rest

/-- Matcher for `blackRunRe` / `whiteRunRe` at one fixed position: the two-character
marker (`AB` resp. `AW`) followed by a nonempty greedy run of coordinate
groups; yields the coordinates captured from the run. -/
def runAt (m1 m2 : Char) : Str → Option (List Str)
  | a :: b :: rest =>
      if a = m1 ∧ b = m2 then
        match parseGroups rest with
        | [] => none
        | gs => some gs
      else none
  | _ => none

/-- The lazy tail `(.*?)\]` of `commentRe`: the characters up to the first
closing bracket, failing if a newline or the end of the input comes first
(the regex dot does not match a newline). -/
def takeUntilClose : Str → Option Str
  | [] => none
  | c :: rest =>
      if c = ']' then some []
      else if c = '\n' then none
      else
        match takeUntilClose rest with
        | some cap => some (c :: cap)
        | none => none

/-- Matcher for `commentRe` `C\[(.*?)\]` at one fixed position: the marker `C[` and
then the shortest non-newline span before a closing bracket. -/
def commentAt : Str → Option Str
  | a :: b :: rest => if a = 'C' ∧ b = '[' then takeUntilClose rest else none
  | _ => none

/-- Models `extractCoords` (parser.go): the leftmost match of the run regex, then
the bracketed coordinates of the captured run (the two regexes collapse to
one pass because the captured group is exactly the contiguous run);
empty when the regex does not match. -/
def extractCoords (m1 m2 : Char) (line : Str) : List Str :=
  match reFind (runAt m1 m2) line with
  | some gs => gs
  | none => []

/-- Models `extractComment` (parser.go): the first comment match, or empty. -/
def extractComment (line : Str) : Str :=
  match reFind commentAt line with
  | some cap => cap
  | none => []

/-- Models `ParseSGFLine` (parser.go). -/
def ParseSGFLine (line : Str) : Except String GoProblem :=
  let black := extractCoords 'A' 'B' line
  let white := extractCoords 'A' 'W' line
  let comment := extractComment line
  if black = [] ∧ white = [] ∧ comment = [] then
    .error "no SGF properties found in line"
  else
    .ok { Name := comment, Black := black, White := white }

/-- What the bufio scanner of `LoadProblems` delivered: the lines it
produced, and the terminal value of `scanner.Err()` (`none` at a clean end
of file; a mid-stream read fault stops the scan, so `lines` holds exactly
the lines seen before it). -/
structure FileScan where
  lines : List Str
  scanErr : Option String
deriving DecidableEq

/-- The loop body of `LoadProblems` (parser.go): parse one line, append the
problem on success, log and skip on failure. -/
def loadStep (acc : List GoProblem) (line : Str) : List GoProblem :=
  match ParseSGFLine line with
  | .ok prob => acc ++ [prob]
  | .error _ => acc

/-- Models `LoadProblems` (parser.go) after a successful open: fold the parse
loop over the scanned lines — the parser state is the `Problems` slice —
then return the scanner error. -/
def LoadProblemsScan (problems : List GoProblem) (f : FileScan) :
    List GoProblem × Option String :=
  (f.lines.foldl loadStep problems, f.scanErr)

/-- Models `LoadProblems` (parser.go) including the open step: a failed
`os.Open` returns that error with the `Problems` slice untouched. -/
def LoadProblems (problems : List GoProblem) (file : Except String FileScan) :
    List GoProblem × Option String :=
  match file with
  | .error e => (problems, some e)
  | .ok f => LoadProblemsScan problems f

/-- The byte length of one character under UTF-8, as Go `len` counts it. -/
def charUtf8Len (c : Char) : Nat :=
  if c.toNat < 0x80 then 1
  else if c.toNat < 0x800 then 2
  else if c.toNat < 0x10000 then 3
  else 4

/-- Go `len` of a string: its UTF-8 byte count. -/
def goLen (s : Str) : Nat := (s.map charUtf8Len).sum

/-- Models `sgfToIndex` (parser.go): `len(s) == 2` is checked in bytes, then each
index is the wrapping uint8 difference `s[i] - 'a'` (byte 97), accepted
only below 19.  A two-byte string that is one two-byte character always
fails the range check in Go — its UTF-8 bytes lie in 0xC2–0xDF and
0x80–0xBF, so each decoded index is at least 19 — which the model's last
branch states directly; the `x < 0` arm of the Go test is kept although a
uint8-to-int conversion is never negative. -/
def sgfToIndex (s : Str) : Except String (Int × Int) :=
  if goLen s ≠ 2 then .error ("invalid coord " ++ String.mk s)
  else
    match s with
    | [c0, c1] =>
        let x : Int := ((c0.toNat + 256 - 97) % 256 : Nat)
        let y : Int := ((c1.toNat + 256 - 97) % 256 : Nat)
        if x < 0 ∨ 19 ≤ x ∨ y < 0 ∨ 19 ≤ y then
          .error ("coord out of range " ++ String.mk s)
        else .ok (x, y)
    | _ => .error ("coord out of range " ++ String.mk s)

/-- The characters `sanitizeFilename` keeps unchanged: ASCII letters
(65–90, 97–122), digits (48–57), underscore (95), hyphen (45). -/
def isFileChar (r : Char) : Bool :=
  decide ((65 ≤ r.toNat ∧ r.toNat ≤ 90) ∨ (97 ≤ r.toNat ∧ r.toNat ≤ 122) ∨
    (48 ≤ r.toNat ∧ r.toNat ≤ 57) ∨ r.toNat = 95 ∨ r.toNat = 45)

/-- The switch inside the loop of `sanitizeFilename`: a space becomes an
underscore, a kept character stands, anything else is dropped. -/
def sanitizeRune (r : Char) : Str :=
  if r = ' ' then ['_']
  else if isFileChar r then [r]
  else []

/-- Models `sanitizeFilename` (parser.go): fold the switch over the runes of the
name, falling back to the literal name `problem` when nothing remains. -/
def sanitizeFilename (name : Str) : Str :=
  let out := name.foldl (fun acc r => acc ++ sanitizeRune r) []
  if out = [] then "problem".data else out

/-- Models `filepath.Join` for one directory and one file component.
`Join` cleans the joined path; for a cleaned directory and a nonempty file
name free of slashes and dots — always true of a sanitized name with its
`.png` extension — that is the plain slash-joined concatenation, an empty
directory giving the bare name. -/
def filepathJoin (dir file : Str) : Str :=
  if dir = [] then file else dir ++ '/' :: file

/-- The control flow of the two stone loops of `RenderProblem`: decode each
coordinate in order with `sgfToIndex`, stopping at the first bad one. -/
def decodeStones : List Str → Except String Unit
  | [] => .ok ()
  | c :: rest =>
      match sgfToIndex c with
      | .error e => .error e
      | .ok _ => decodeStones rest

/-- Everything `RenderProblem` does that is visible beyond pixels: the
path handed to `SavePNG` if the code reaches the save, and the returned
value. -/
structure RenderOutcome where
  saved : Option Str
  result : Except String Str
deriving DecidableEq

/-- Models `RenderProblem` (parser.go), stripped of the pure drawing calls, which
neither fail nor affect the returned value (the ignored `LoadFontFace`
error included): decode every black stone, then every white stone, failing
fast on a bad coordinate before any file is written; otherwise derive the
output path from the sanitized name and save there.  The save itself is
modelled as succeeding — its failure is an I/O event outside this
embedding — and `boardsizePx` / `marginPx` only shape pixels. -/
def RenderProblem (p : GoProblem) (outputDir : Str)
    (boardsizePx marginPx : Int) : RenderOutcome :=
  match decodeStones p.Black with
  | .error e => { saved := none, result := .error e }
  | .ok _ =>
      match decodeStones p.White with
      | .error e => { saved := none, result := .error e }
      | .ok _ =>
          let outPath := filepathJoin outputDir (sanitizeFilename p.Name ++ ".png".data)
          { saved := some outPath, result := .ok outPath }

/-- The text of a run of coordinate groups: each coordinate in brackets. -/
def encGroups (cs : List Str) : Str := (cs.map (fun c => '[' :: (c ++ [']']))).flatten

/-- A well-formed coordinate: two characters, both in a–s. -/
def goodCoord (c : Str) : Bool :=
  match c with
  | [x, y] => isCoordChar x && isCoordChar y
  | _ => false

/-- Every coordinate of the list is well formed. -/
def validGroups (cs : List Str) : Bool := cs.all goodCoord

/-- The text begins with a bracketed two-character coordinate group. -/
def startsGroup : Str → Bool
  | a :: x :: y :: b :: _ =>
      if a = '[' ∧ b = ']' ∧ isCoordChar x ∧ isCoordChar y then true else false
  | _ => false

/-- No adjacent occurrence of the two given characters in the text. -/
def noAdj (m1 m2 : Char) : Str → Bool
  | c1 :: c2 :: rest => !(decide (c1 = m1 ∧ c2 = m2)) && noAdj m1 m2 (c2 :: rest)
  | _ => true

/-- Caption content as the comment matcher can produce it: no closing
bracket and no newline. -/
def noClose (cap : Str) : Bool := cap.all (fun c => !(decide (c = ']' ∨ c = '\n')))

/-- The lines of a file that `LoadProblems` skips. -/
def parseFails (line : Str) : Bool :=
  match ParseSGFLine line with
  | .ok _ => false
  | .error _ => true

/-- The per-rune map described by the spec for `sanitizeFilename`: a space
becomes an underscore, a kept character maps to itself, anything else is
dropped. -/
def sanitizeCharMap (r : Char) : Option Char :=
  if r = ' ' then some '_' else if isFileChar r then some r else none

/-! ### Lemmas about the run matcher -/

theorem goodCoord_iff {c : Str} :
    goodCoord c = true ↔
      ∃ x y, c = [x, y] ∧ isCoordChar x = true ∧ isCoordChar y = true := by
  constructor
  · intro h
    match c with
    | [] => simp [goodCoord] at h
    | [x] => simp [goodCoord] at h
    | [x, y] =>
        simp only [goodCoord, Bool.and_eq_true] at h
        exact ⟨x, y, rfl, h.1, h.2⟩
    | x :: y :: z :: r => simp [goodCoord] at h
  · rintro ⟨x, y, rfl, hx, hy⟩
    simp [goodCoord, hx, hy]

theorem parseGroups_encGroups (cs : List Str) (v : Str)
    (h : validGroups cs = true) :
    parseGroups (encGroups cs ++ v) = cs ++ parseGroups v := by
  induction cs with
  | nil => simp [encGroups]
  | cons c cs ih =>
      simp only [validGroups, List.all_cons, Bool.and_eq_true] at h
      obtain ⟨hc, hrest⟩ := h
      obtain ⟨x, y, rfl, hx, hy⟩ := goodCoord_iff.mp hc
      have henc : encGroups ([x, y] :: cs) = '[' :: x :: y :: ']' :: encGroups cs := by
        simp [encGroups]
      rw [henc]
      show parseGroups ('[' :: x :: y :: ']' :: (encGroups cs ++ v)) = _
      rw [parseGroups, if_pos ⟨rfl, rfl, hx, hy⟩, ih hrest]
      rfl

theorem parseGroups_eq_nil {v : Str} (h : startsGroup v = false) :
    parseGroups v = [] := by
  match v with
  | [] => rfl
  | [a] => rfl
  | [a, b] => rfl
  | [a, b, c] => rfl
  | a :: x :: y :: b :: rest =>
      by_cases hp : a = '[' ∧ b = ']' ∧ isCoordChar x ∧ isCoordChar y
      · rw [startsGroup, if_pos hp] at h
        exact absurd h (by simp)
      · rw [parseGroups, if_neg hp]

/-! ### Lemmas about adjacent marker occurrences -/

theorem noAdj_tail {m1 m2 c : Char} {l : Str}
    (h : noAdj m1 m2 (c :: l) = true) : noAdj m1 m2 l = true := by
  match l with
  | [] => rfl
  | d :: r =>
      rw [noAdj, Bool.and_eq_true] at h
      exact h.2

theorem noAdj_of_suffix {m1 m2 : Char} {s w : Str}
    (hs : noAdj m1 m2 s = true) (hsuf : w <:+ s) : noAdj m1 m2 w = true := by
  obtain ⟨t, rfl⟩ := hsuf
  induction t with
  | nil => simpa using hs
  | cons c t ih => exact ih (noAdj_tail hs)

theorem noAdj_two (m1 m2 : Char) (r : Str) :
    noAdj m1 m2 (m1 :: m2 :: r) = false := by
  simp [noAdj]

/-! ### The leftmost-match scanner -/

theorem reFind_append_none {α : Type} (f : Str → Option α) (u v : Str)
    (h : ∀ w : Str, w ≠ [] → w <:+ u → f (w ++ v) = none) :
    reFind f (u ++ v) = reFind f v := by
  induction u with
  | nil => rfl
  | cons c u ih =>
      have hc : f (c :: (u ++ v)) = none := by
        have h2 := h (c :: u) (by simp) List.suffix_rfl
        simpa using h2
      have ih2 := ih (fun w hne hsuf => h w hne (hsuf.trans (List.suffix_cons c u)))
      show reFind f (c :: (u ++ v)) = reFind f v
      rw [reFind, hc]
      exact ih2

theorem runAt_none {m1 m2 : Char} {s : Str}
    (h : ∀ r : Str, s ≠ m1 :: m2 :: r) : runAt m1 m2 s = none := by
  match s with
  | [] => rfl
  | [a] => rfl
  | a :: b :: rest =>
      by_cases hab : a = m1 ∧ b = m2
      · exact absurd (by rw [hab.1, hab.2]) (h rest)
      · rw [runAt, if_neg hab]

theorem commentAt_none {s : Str}
    (h : ∀ r : Str, s ≠ 'C' :: '[' :: r) : commentAt s = none := by
  match s with
  | [] => rfl
  | [a] => rfl
  | a :: b :: rest =>
      by_cases hab : a = 'C' ∧ b = '['
      · exact absurd (by rw [hab.1, hab.2]) (h rest)
      · rw [commentAt, if_neg hab]

theorem reFind_skip {α : Type} {m1 m2 : Char} (f : Str → Option α)
    (hf : ∀ s : Str, (∀ r : Str, s ≠ m1 :: m2 :: r) → f s = none)
    (u v : Str) (h : noAdj m1 m2 (u ++ v.take 1) = true) :
    reFind f (u ++ v) = reFind f v := by
  apply reFind_append_none
  intro w hne hsuf
  apply hf
  intro r hwv
  rcases w with _ | ⟨c, w'⟩
  · exact hne rfl
  rcases w' with _ | ⟨c2, w''⟩
  · simp only [List.cons_append, List.nil_append, List.cons.injEq] at hwv
    obtain ⟨hc, hv⟩ := hwv
    obtain ⟨t, ht⟩ := hsuf
    have hsx : (m1 :: m2 :: []) <:+ (u ++ v.take 1) := by
      refine ⟨t, ?_⟩
      rw [← ht, hv, ← hc]
      simp
    have h2 := noAdj_of_suffix h hsx
    rw [noAdj_two] at h2
    exact Bool.noConfusion h2
  · simp only [List.cons_append, List.cons.injEq] at hwv
    obtain ⟨hc, hc2, hr⟩ := hwv
    obtain ⟨t, ht⟩ := hsuf
    have hsx : (m1 :: m2 :: (w'' ++ v.take 1)) <:+ (u ++ v.take 1) := by
      refine ⟨t, ?_⟩
      rw [← ht, ← hc, ← hc2]
      simp
    have h2 := noAdj_of_suffix h hsx
    rw [noAdj_two] at h2
    exact Bool.noConfusion h2

/-! ### Completeness: a marker run or caption present in the line is found -/

theorem extractCoords_complete (m1 m2 : Char) (u v : Str) (cs : List Str)
    (hval : validGroups cs = true) (hne : cs ≠ [])
    (hv : startsGroup v = false) (hu : noAdj m1 m2 (u ++ [m1]) = true) :
    extractCoords m1 m2 (u ++ m1 :: m2 :: (encGroups cs ++ v)) = cs := by
  unfold extractCoords
  have hskip : reFind (runAt m1 m2) (u ++ m1 :: m2 :: (encGroups cs ++ v)) =
      reFind (runAt m1 m2) (m1 :: m2 :: (encGroups cs ++ v)) := by
    apply reFind_skip (runAt m1 m2) (fun s h => runAt_none h) u _
    simpa using hu
  have hpg : parseGroups (encGroups cs ++ v) = cs := by
    rw [parseGroups_encGroups cs v hval, parseGroups_eq_nil hv, List.append_nil]
  have hrun : runAt m1 m2 (m1 :: m2 :: (encGroups cs ++ v)) = some cs := by
    rw [runAt, if_pos ⟨rfl, rfl⟩, hpg]
    cases cs with
    | nil => exact absurd rfl hne
    | cons c cs' => rfl
  have hfind : reFind (runAt m1 m2) (m1 :: m2 :: (encGroups cs ++ v)) = some cs := by
    rw [reFind, hrun]
  rw [hskip, hfind]

theorem takeUntilClose_append (cap v : Str) (h : noClose cap = true) :
    takeUntilClose (cap ++ ']' :: v) = some cap := by
  induction cap with
  | nil => rfl
  | cons c cap ih =>
      simp only [noClose, List.all_cons, Bool.and_eq_true] at h
      have hc : ¬(c = ']' ∨ c = '\n') := by simpa using h.1
      have ih2 := ih h.2
      show takeUntilClose (c :: (cap ++ ']' :: v)) = some (c :: cap)
      rw [takeUntilClose, if_neg (fun h2 => hc (Or.inl h2)),
        if_neg (fun h2 => hc (Or.inr h2)), ih2]

theorem extractComment_complete (u cap v : Str)
    (hcap : noClose cap = true) (hu : noAdj 'C' '[' (u ++ ['C']) = true) :
    reFind commentAt (u ++ 'C' :: '[' :: (cap ++ ']' :: v)) = some cap := by
  have hskip := reFind_skip commentAt (fun s h => commentAt_none h) u
      ('C' :: '[' :: (cap ++ ']' :: v)) (by simpa using hu)
  have hca : commentAt ('C' :: '[' :: (cap ++ ']' :: v)) = some cap := by
    rw [commentAt, if_pos ⟨rfl, rfl⟩]
    exact takeUntilClose_append cap v hcap
  rw [hskip, reFind, hca]

/-! ### Soundness: what the scanners find is really in the line -/

theorem reFind_sound {α : Type} {f : Str → Option α} {s : Str} {a : α}
    (h : reFind f s = some a) :
    ∃ u v, s = u ++ v ∧ f v = some a ∧
      ∀ w : Str, w ≠ [] → w <:+ u → f (w ++ v) = none := by
  induction s with
  | nil =>
      exact ⟨[], [], rfl, h,
        fun w hw hsuf => absurd (List.suffix_nil.mp hsuf) hw⟩
  | cons c rest ih =>
      rw [reFind] at h
      cases hf : f (c :: rest) with
      | some b =>
          rw [hf] at h
          have hb : b = a := by simpa using h
          subst hb
          exact ⟨[], c :: rest, rfl, hf,
            fun w hw hsuf => absurd (List.suffix_nil.mp hsuf) hw⟩
      | none =>
          rw [hf] at h
          obtain ⟨u, v, rfl, hfv, hnone⟩ := ih h
          refine ⟨c :: u, v, by simp, hfv, ?_⟩
          intro w hw hsuf
          rcases List.suffix_cons_iff.mp hsuf with hcase | hcase
          · subst hcase
            simpa using hf
          · exact hnone w hw hcase

theorem runAt_sound {m1 m2 : Char} {s : Str} {gs : List Str}
    (h : runAt m1 m2 s = some gs) :
    ∃ rest, s = m1 :: m2 :: rest ∧ parseGroups rest = gs ∧ gs ≠ [] := by
  match s with
  | [] => simp [runAt] at h
  | [a] => simp [runAt] at h
  | a :: b :: rest =>
      by_cases hab : a = m1 ∧ b = m2
      · rw [runAt, if_pos hab] at h
        refine ⟨rest, by rw [hab.1, hab.2], ?_⟩
        cases hpg : parseGroups rest with
        | nil => rw [hpg] at h; simp at h
        | cons g gs' =>
            rw [hpg] at h
            have h2 : g :: gs' = gs := by simpa using h
            subst h2
            exact ⟨rfl, by simp⟩
      · rw [runAt, if_neg hab] at h
        simp at h

theorem parseGroups_sound_aux (n : Nat) :
    ∀ s : Str, s.length ≤ n →
      ∃ v, s = encGroups (parseGroups s) ++ v ∧ startsGroup v = false ∧
        validGroups (parseGroups s) = true := by
  induction n with
  | zero =>
      intro s hs
      have hnil : s = [] := by
        cases s with
        | nil => rfl
        | cons a t => simp at hs
      subst hnil
      exact ⟨[], by simp [parseGroups, encGroups], rfl, rfl⟩
  | succ n ih =>
      intro s hs
      rcases s with _ | ⟨a, _ | ⟨x, _ | ⟨y, _ | ⟨b, rest⟩⟩⟩⟩
      · exact ⟨[], by simp [parseGroups, encGroups], rfl, rfl⟩
      · exact ⟨[a], by simp [parseGroups, encGroups], rfl, rfl⟩
      · exact ⟨[a, x], by simp [parseGroups, encGroups], rfl, rfl⟩
      · exact ⟨[a, x, y], by simp [parseGroups, encGroups], rfl, rfl⟩
      · by_cases hc : a = '[' ∧ b = ']' ∧ isCoordChar x ∧ isCoordChar y
        · obtain ⟨v, hv1, hv2, hv3⟩ := ih rest (by simp at hs; omega)
          obtain ⟨hc1, hc4, hc2, hc3⟩ := hc
          subst hc1; subst hc4
          refine ⟨v, ?_, hv2, ?_⟩
          · rw [parseGroups, if_pos ⟨rfl, rfl, hc2, hc3⟩]
            have henc : encGroups ([x, y] :: parseGroups rest) =
                '[' :: x :: y :: ']' :: encGroups (parseGroups rest) := by
              simp [encGroups]
            rw [henc]
            simp only [List.cons_append, List.cons.injEq, true_and]
            exact hv1
          · rw [parseGroups, if_pos ⟨rfl, rfl, hc2, hc3⟩]
            simp only [validGroups, List.all_cons, Bool.and_eq_true]
            exact ⟨by simp [goodCoord, hc2, hc3], hv3⟩
        · refine ⟨a :: x :: y :: b :: rest, ?_, ?_, ?_⟩
          · rw [parseGroups, if_neg hc]
            simp [encGroups]
          · rw [startsGroup, if_neg hc]
          · rw [parseGroups, if_neg hc]
            rfl

theorem parseGroups_sound (s : Str) :
    ∃ v, s = encGroups (parseGroups s) ++ v ∧ startsGroup v = false ∧
      validGroups (parseGroups s) = true :=
  parseGroups_sound_aux s.length s le_rfl

theorem takeUntilClose_sound {s cap : Str} (h : takeUntilClose s = some cap) :
    ∃ v, s = cap ++ ']' :: v ∧ noClose cap = true := by
  induction s generalizing cap with
  | nil => simp [takeUntilClose] at h
  | cons c rest ih =>
      rw [takeUntilClose] at h
      by_cases hc : c = ']'
      · rw [if_pos hc] at h
        have hcap : [] = cap := by simpa using h
        subst hcap; subst hc
        exact ⟨rest, rfl, rfl⟩
      · rw [if_neg hc] at h
        by_cases hn : c = '\n'
        · rw [if_pos hn] at h; simp at h
        · rw [if_neg hn] at h
          cases ht : takeUntilClose rest with
          | none => rw [ht] at h; simp at h
          | some cap' =>
              rw [ht] at h
              have hcap : c :: cap' = cap := by simpa using h
              obtain ⟨v, hv, hnc⟩ := ih ht
              subst hcap
              refine ⟨v, by simp [hv], ?_⟩
              simp only [noClose, List.all_cons, Bool.and_eq_true]
              exact ⟨by simp [hc, hn], hnc⟩

theorem commentAt_sound {s cap : Str} (h : commentAt s = some cap) :
    ∃ rest, s = 'C' :: '[' :: rest ∧ takeUntilClose rest = some cap := by
  match s with
  | [] => simp [commentAt] at h
  | [a] => simp [commentAt] at h
  | a :: b :: rest =>
      by_cases hab : a = 'C' ∧ b = '['
      · rw [commentAt, if_pos hab] at h
        exact ⟨rest, by rw [hab.1, hab.2], h⟩
      · rw [commentAt, if_neg hab] at h
        simp at h

theorem extractCoords_sound {m1 m2 : Char} {line : Str} {cs : List Str}
    (h : extractCoords m1 m2 line = cs) (hne : cs ≠ []) :
    ∃ u v, line = u ++ m1 :: m2 :: (encGroups cs ++ v) ∧
      startsGroup v = false ∧ validGroups cs = true := by
  unfold extractCoords at h
  cases hf : reFind (runAt m1 m2) line with
  | none => rw [hf] at h; exact absurd h.symm hne
  | some gs =>
      rw [hf] at h
      subst h
      obtain ⟨u, v0, rfl, hrv, hno⟩ := reFind_sound hf
      obtain ⟨rest, hrest, hpg, hne2⟩ := runAt_sound hrv
      obtain ⟨v, hv1, hv2, hv3⟩ := parseGroups_sound rest
      rw [hpg] at hv1 hv3
      exact ⟨u, v, by rw [hrest, hv1], hv2, hv3⟩

theorem extractComment_sound {line cap : Str}
    (h : reFind commentAt line = some cap) :
    ∃ u v, line = u ++ 'C' :: '[' :: (cap ++ ']' :: v) ∧ noClose cap = true ∧
      ∀ w : Str, w ≠ [] → w <:+ u →
        commentAt (w ++ 'C' :: '[' :: (cap ++ ']' :: v)) = none := by
  obtain ⟨u, v0, rfl, hcv, hnone⟩ := reFind_sound h
  obtain ⟨rest, hrest, htc⟩ := commentAt_sound hcv
  obtain ⟨v, hv, hnc⟩ := takeUntilClose_sound htc
  subst hv
  subst hrest
  exact ⟨u, v, rfl, hnc, hnone⟩

/-! ### Coordinate decoding -/

theorem charUtf8Len_eq_one {c : Char} (h : c.toNat < 128) : charUtf8Len c = 1 := by
  simp [charUtf8Len, h]

theorem charUtf8Len_pos (c : Char) : 1 ≤ charUtf8Len c := by
  unfold charUtf8Len
  split_ifs <;> omega

theorem charUtf8Len_ge_two {c : Char} (h : 128 ≤ c.toNat) : 2 ≤ charUtf8Len c := by
  unfold charUtf8Len
  split_ifs <;> omega

theorem sgfToIndex_isOk_of_good {c : Str} (h : goodCoord c = true) :
    ∃ x y : Int, sgfToIndex c = .ok (x, y) ∧ 0 ≤ x ∧ x ≤ 18 ∧ 0 ≤ y ∧ y ≤ 18 := by
  obtain ⟨cx, cy, rfl, hx, hy⟩ := goodCoord_iff.mp h
  simp only [isCoordChar, decide_eq_true_eq] at hx hy
  have hgl : goLen [cx, cy] = 2 := by
    simp [goLen, charUtf8Len_eq_one (show cx.toNat < 128 by omega),
      charUtf8Len_eq_one (show cy.toNat < 128 by omega)]
  refine ⟨((cx.toNat + 256 - 97) % 256 : Nat), ((cy.toNat + 256 - 97) % 256 : Nat),
    ?_, ?_, ?_, ?_, ?_⟩
  · rw [sgfToIndex, if_neg (by simp [hgl])]
    show (if _ ∨ _ ∨ _ ∨ _ then _ else _) = _
    rw [if_neg ?_]
    push_neg
    refine ⟨by positivity, ?_, by positivity, ?_⟩
    · push_cast
      omega
    · push_cast
      omega
  · positivity
  · push_cast
    omega
  · positivity
  · push_cast
    omega

theorem sgfToIndex_error_of_bad {c : Str} (h : goodCoord c = false) :
    ∃ e, sgfToIndex c = .error e ∧
      (e = "invalid coord " ++ String.mk c ∨
       e = "coord out of range " ++ String.mk c) := by
  match c with
  | [] =>
      refine ⟨_, ?_, Or.inl rfl⟩
      rw [sgfToIndex, if_pos (by simp [goLen])]
      intro c0 c1 hx
      simp at hx
  | [a] =>
      by_cases h2 : goLen [a] = 2
      · refine ⟨_, ?_, Or.inr rfl⟩
        rw [sgfToIndex, if_neg (by simp [h2])]
        intro c0 c1 hx
        simp at hx
      · refine ⟨_, ?_, Or.inl rfl⟩
        rw [sgfToIndex, if_pos h2]
        intro c0 c1 hx
        simp at hx
  | [a, b] =>
      by_cases ha : a.toNat < 128
      · by_cases hb : b.toNat < 128
        · have hgl : goLen [a, b] = 2 := by
            simp [goLen, charUtf8Len_eq_one ha, charUtf8Len_eq_one hb]
          have hbad : ¬(isCoordChar a = true ∧ isCoordChar b = true) := by
            intro hab
            rw [goodCoord] at h
            simp [hab.1, hab.2] at h
          simp only [isCoordChar, decide_eq_true_eq] at hbad
          refine ⟨_, ?_, Or.inr rfl⟩
          rw [sgfToIndex, if_neg (by simp [hgl])]
          show (if _ ∨ _ ∨ _ ∨ _ then _ else _) = _
          rw [if_pos ?_]
          by_cases hcca : 97 ≤ a.toNat ∧ a.toNat ≤ 115
          · have hccb : ¬(97 ≤ b.toNat ∧ b.toNat ≤ 115) := fun hc2 => hbad ⟨hcca, hc2⟩
            refine Or.inr (Or.inr (Or.inr ?_))
            push_cast
            omega
          · refine Or.inr (Or.inl ?_)
            push_cast
            omega
        · refine ⟨_, ?_, Or.inl rfl⟩
          rw [sgfToIndex, if_pos ?_]
          have h2 := charUtf8Len_ge_two (show 128 ≤ b.toNat by omega)
          have h1 := charUtf8Len_pos a
          simp only [goLen, List.map_cons, List.map_nil, List.sum_cons, List.sum_nil]
          omega
      · refine ⟨_, ?_, Or.inl rfl⟩
        rw [sgfToIndex, if_pos ?_]
        have h2 := charUtf8Len_ge_two (show 128 ≤ a.toNat by omega)
        have h1 := charUtf8Len_pos b
        simp only [goLen, List.map_cons, List.map_nil, List.sum_cons, List.sum_nil]
        omega
  | a :: b :: c2 :: rest =>
      refine ⟨_, ?_, Or.inl rfl⟩
      rw [sgfToIndex, if_pos ?_]
      · have h1 := charUtf8Len_pos a
        have h2 := charUtf8Len_pos b
        have h3 := charUtf8Len_pos c2
        simp only [goLen, List.map_cons, List.sum_cons]
        omega
      · intro c0 c1 hx
        simp at hx

/-! ### Stone decoding in the renderer -/

theorem decodeStones_ok {l : List Str} (h : ∀ c ∈ l, goodCoord c = true) :
    decodeStones l = .ok () := by
  induction l with
  | nil => rfl
  | cons c rest ih =>
      obtain ⟨x, y, hxy, _⟩ := sgfToIndex_isOk_of_good (h c (by simp))
      rw [decodeStones, hxy]
      exact ih (fun c2 hc2 => h c2 (by simp [hc2]))

theorem decodeStones_bad {l : List Str} (hex : ∃ c ∈ l, goodCoord c = false) :
    ∃ e c, decodeStones l = .error e ∧ c ∈ l ∧ goodCoord c = false ∧
      (e = "invalid coord " ++ String.mk c ∨
       e = "coord out of range " ++ String.mk c) := by
  induction l with
  | nil => simp at hex
  | cons c rest ih =>
      by_cases hc : goodCoord c = true
      · obtain ⟨x, y, hxy, _⟩ := sgfToIndex_isOk_of_good hc
        have hex2 : ∃ c2 ∈ rest, goodCoord c2 = false := by
          rcases hex with ⟨c2, hmem, hbad⟩
          rcases List.mem_cons.mp hmem with rfl | hmem2
          · rw [hc] at hbad
            exact absurd hbad (by simp)
          · exact ⟨c2, hmem2, hbad⟩
        obtain ⟨e, c2, he, hmem, hbad, hform⟩ := ih hex2
        exact ⟨e, c2, by rw [decodeStones, hxy]; exact he, by simp [hmem], hbad, hform⟩
      · have hcf : goodCoord c = false := by simpa using hc
        obtain ⟨e, he, hform⟩ := sgfToIndex_error_of_bad hcf
        exact ⟨e, c, by rw [decodeStones, he], by simp, hcf, hform⟩

/-! ### Coordinates produced by the parser are always well formed -/

theorem extractCoords_all_good (m1 m2 : Char) (line : Str) :
    ∀ c ∈ extractCoords m1 m2 line, goodCoord c = true := by
  intro c hc
  cases hcs : extractCoords m1 m2 line with
  | nil => rw [hcs] at hc; simp at hc
  | cons g gs =>
      obtain ⟨u, v, hline, hv, hval⟩ := extractCoords_sound hcs (by simp)
      rw [hcs] at hc
      simp only [validGroups] at hval
      exact List.all_eq_true.mp hval c hc

theorem ParseSGFLine_cases (line : Str) :
    (extractCoords 'A' 'B' line = [] ∧ extractCoords 'A' 'W' line = [] ∧
        extractComment line = [] ∧
        ParseSGFLine line = .error "no SGF properties found in line") ∨
      ParseSGFLine line = .ok
        { Name := extractComment line, Black := extractCoords 'A' 'B' line,
          White := extractCoords 'A' 'W' line } := by
  unfold ParseSGFLine
  by_cases h : extractCoords 'A' 'B' line = [] ∧ extractCoords 'A' 'W' line = [] ∧
      extractComment line = []
  · exact Or.inl ⟨h.1, h.2.1, h.2.2, by rw [if_pos h]⟩
  · exact Or.inr (by rw [if_neg h])

theorem ParseSGFLine_good_coords {line : Str} {prob : GoProblem}
    (h : ParseSGFLine line = .ok prob) :
    (∀ c ∈ prob.Black, goodCoord c = true) ∧
      (∀ c ∈ prob.White, goodCoord c = true) := by
  rcases ParseSGFLine_cases line with ⟨_, _, _, herr⟩ | hok
  · rw [h] at herr
    simp at herr
  · rw [h] at hok
    have hprob : prob = ⟨extractComment line, extractCoords 'A' 'B' line,
        extractCoords 'A' 'W' line⟩ := by
      simpa using hok
    subst hprob
    exact ⟨extractCoords_all_good 'A' 'B' line, extractCoords_all_good 'A' 'W' line⟩

/-! ### Filename sanitization -/

theorem sanitizeRune_eq (r : Char) : sanitizeRune r = (sanitizeCharMap r).toList := by
  unfold sanitizeRune sanitizeCharMap
  split_ifs <;> rfl

theorem foldl_sanitize (name : Str) :
    ∀ acc : Str, name.foldl (fun acc r => acc ++ sanitizeRune r) acc =
      acc ++ name.filterMap sanitizeCharMap := by
  induction name with
  | nil => intro acc; simp
  | cons c name ih =>
      intro acc
      rw [List.foldl_cons, ih, List.filterMap_cons]
      cases hc : sanitizeCharMap c with
      | none => simp [sanitizeRune_eq, hc]
      | some d => simp [sanitizeRune_eq, hc]

theorem sanitizeFilename_eq (name : Str) :
    sanitizeFilename name =
      (if name.filterMap sanitizeCharMap = [] then "problem".data
       else name.filterMap sanitizeCharMap) := by
  unfold sanitizeFilename
  rw [foldl_sanitize name []]
  simp

theorem sanitizeCharMap_fix {a c : Char} (h : sanitizeCharMap a = some c) :
    sanitizeCharMap c = some c := by
  unfold sanitizeCharMap at h ⊢
  by_cases ha : a = ' '
  · rw [if_pos ha] at h
    have hc : c = '_' := by simpa using h.symm
    subst hc
    rw [if_neg (by decide), if_pos (by decide)]
  · rw [if_neg ha] at h
    by_cases hf : isFileChar a = true
    · rw [if_pos hf] at h
      have hc : c = a := by simpa using h.symm
      subst hc
      rw [if_neg ha, if_pos hf]
    · rw [if_neg hf] at h
      simp at h

theorem sanitize_members {name : Str} :
    ∀ c ∈ name.filterMap sanitizeCharMap, sanitizeCharMap c = some c := by
  intro c hc
  obtain ⟨a, ha, hmap⟩ := List.mem_filterMap.mp hc
  exact sanitizeCharMap_fix hmap

theorem filterMap_id_of_fix {l : Str} (h : ∀ c ∈ l, sanitizeCharMap c = some c) :
    l.filterMap sanitizeCharMap = l := by
  induction l with
  | nil => rfl
  | cons c rest ih =>
      rw [List.filterMap_cons, h c (by simp)]
      rw [ih (fun d hd => h d (by simp [hd]))]

theorem sanitizeFilename_idem (name : Str) :
    sanitizeFilename (sanitizeFilename name) = sanitizeFilename name := by
  rw [sanitizeFilename_eq name]
  by_cases h : name.filterMap sanitizeCharMap = []
  · rw [if_pos h]
    decide
  · rw [if_neg h]
    rw [sanitizeFilename_eq]
    rw [filterMap_id_of_fix sanitize_members]
    rw [if_neg h]

/-! ### The loader loop -/

theorem foldl_loadStep_append (lines : List Str) :
    ∀ p q : List GoProblem,
      lines.foldl loadStep (p ++ q) = p ++ lines.foldl loadStep q := by
  induction lines with
  | nil => intro p q; rfl
  | cons l lines ih =>
      intro p q
      rw [List.foldl_cons, List.foldl_cons]
      have hstep : loadStep (p ++ q) l = p ++ loadStep q l := by
        unfold loadStep
        cases ParseSGFLine l with
        | ok prob => simp
        | error e => rfl
      rw [hstep, ih]

theorem foldl_loadStep_filterMap (lines : List Str) :
    ∀ p : List GoProblem, lines.foldl loadStep p =
      p ++ lines.filterMap (fun l => (ParseSGFLine l).toOption) := by
  induction lines with
  | nil => intro p; simp
  | cons l lines ih =>
      intro p
      rw [List.foldl_cons, ih, List.filterMap_cons]
      cases hpl : ParseSGFLine l with
      | ok prob => simp [loadStep, hpl, Except.toOption]
      | error e => simp [loadStep, hpl, Except.toOption]

theorem filterMap_length_add (lines : List Str) :
    (lines.filterMap (fun l => (ParseSGFLine l).toOption)).length +
      (lines.filter parseFails).length = lines.length := by
  induction lines with
  | nil => rfl
  | cons l lines ih =>
      rw [List.filterMap_cons, List.filter_cons]
      cases hpl : ParseSGFLine l with
      | ok prob =>
          have hpf : parseFails l = false := by simp [parseFails, hpl]
          simp only [Except.toOption] at ih
          simp only [hpl, Except.toOption, hpf, Bool.false_eq_true, if_false,
            List.length_cons]
          omega
      | error e =>
          have hpf : parseFails l = true := by simp [parseFails, hpl]
          simp only [Except.toOption] at ih
          simp only [hpl, Except.toOption, hpf, if_true, List.length_cons]
          omega

/-! ### Claim theorems -/

/-- Claim C1: for every input line containing a black run, a white run and a
caption in any order — the line decomposes around the markers `AB`, `AW`
and `C[` with the shapes of the format, no marker pair occurring earlier,
each run maximal — `ParseSGFLine` returns a problem whose `Black` and
`White` sequences are exactly the coordinates of the corresponding run in
left-to-right order (duplicates kept, the coordinate lists being
arbitrary) and whose `Name` is the caption content verbatim; in
particular the line `(;AB[cc][cd][dd]AW[dd][de]C[Example problem])`
yields the title `Example problem`, black `cc,cd,dd`, white `dd,de`. -/
theorem C1_parse_black_white_caption :
    (∀ (line u1 v1 u2 v2 u3 v3 cap : Str) (bs ws : List Str),
      line = u1 ++ 'A' :: 'B' :: (encGroups bs ++ v1) →
      line = u2 ++ 'A' :: 'W' :: (encGroups ws ++ v2) →
      line = u3 ++ 'C' :: '[' :: (cap ++ ']' :: v3) →
      validGroups bs = true → bs ≠ [] → startsGroup v1 = false →
      noAdj 'A' 'B' (u1 ++ ['A']) = true →
      validGroups ws = true → ws ≠ [] → startsGroup v2 = false →
      noAdj 'A' 'W' (u2 ++ ['A']) = true →
      noClose cap = true → noAdj 'C' '[' (u3 ++ ['C']) = true →
      ParseSGFLine line = .ok { Name := cap, Black := bs, White := ws }) ∧
    ParseSGFLine "(;AB[cc][cd][dd]AW[dd][de]C[Example problem])".data =
      .ok { Name := "Example problem".data,
            Black := ["cc".data, "cd".data, "dd".data],
            White := ["dd".data, "de".data] } := by
  constructor
  · intro line u1 v1 u2 v2 u3 v3 cap bs ws h1 h2 h3 hvb hbne hv1 hu1 hvw hwne hv2 hu2 hcap hu3
    have hb : extractCoords 'A' 'B' line = bs := by
      rw [h1]
      exact extractCoords_complete 'A' 'B' u1 v1 bs hvb hbne hv1 hu1
    have hw : extractCoords 'A' 'W' line = ws := by
      rw [h2]
      exact extractCoords_complete 'A' 'W' u2 v2 ws hvw hwne hv2 hu2
    have hcom : extractComment line = cap := by
      rw [h3]
      unfold extractComment
      rw [extractComment_complete u3 cap v3 hcap hu3]
    rcases ParseSGFLine_cases line with ⟨hb0, _, _, _⟩ | hok
    · rw [hb] at hb0
      exact absurd hb0 hbne
    · rw [hok, hb, hw, hcom]
  · decide

/-- Witness for C1: the general statement applied to the concrete example line
with its explicit decomposition around each of the three markers. -/
theorem C1_parse_black_white_caption_witness :
    ParseSGFLine "(;AB[cc][cd][dd]AW[dd][de]C[Example problem])".data =
      .ok { Name := "Example problem".data,
            Black := ["cc".data, "cd".data, "dd".data],
            White := ["dd".data, "de".data] } :=
  C1_parse_black_white_caption.1
    "(;AB[cc][cd][dd]AW[dd][de]C[Example problem])".data
    "(;".data "AW[dd][de]C[Example problem])".data
    "(;AB[cc][cd][dd]".data "C[Example problem])".data
    "(;AB[cc][cd][dd]AW[dd][de]".data ")".data
    "Example problem".data
    ["cc".data, "cd".data, "dd".data] ["dd".data, "de".data]
    (by decide) (by decide) (by decide) (by decide) (by decide) (by decide)
    (by decide) (by decide) (by decide) (by decide) (by decide) (by decide)
    (by decide)

/-- Claim C2: `ParseSGFLine` fails, with the no-recognizable-fields error,
exactly when the black extraction, the white extraction and the caption
extraction all come back empty; otherwise it succeeds with exactly what
was found, the missing pieces defaulting to an empty list or empty title —
concretely, a caption-only line parses with both stone lists empty. -/
theorem C2_parse_error_iff :
    (∀ line : Str,
      (ParseSGFLine line = .error "no SGF properties found in line" ↔
        extractCoords 'A' 'B' line = [] ∧ extractCoords 'A' 'W' line = [] ∧
          extractComment line = []) ∧
      (extractCoords 'A' 'B' line ≠ [] ∨ extractCoords 'A' 'W' line ≠ [] ∨
          extractComment line ≠ [] →
        ParseSGFLine line = .ok
          { Name := extractComment line, Black := extractCoords 'A' 'B' line,
            White := extractCoords 'A' 'W' line })) ∧
    ParseSGFLine "(;C[Only a caption])".data =
      .ok { Name := "Only a caption".data, Black := [], White := [] } := by
  constructor
  · intro line
    constructor
    · constructor
      · intro herr
        rcases ParseSGFLine_cases line with ⟨h1, h2, h3, _⟩ | hok
        · exact ⟨h1, h2, h3⟩
        · rw [herr] at hok
          simp at hok
      · intro ⟨h1, h2, h3⟩
        unfold ParseSGFLine
        rw [if_pos ⟨h1, h2, h3⟩]
    · intro hne
      rcases ParseSGFLine_cases line with ⟨h1, h2, h3, _⟩ | hok
      · rcases hne with h | h | h
        · exact absurd h1 h
        · exact absurd h2 h
        · exact absurd h3 h
      · exact hok
  · decide

/-- Witness for C2: the success direction applied to a line having only a
white run, checking the missing pieces default to empty. -/
theorem C2_parse_error_iff_witness :
    ParseSGFLine "(;AW[qq])".data =
      .ok { Name := extractComment "(;AW[qq])".data,
            Black := extractCoords 'A' 'B' "(;AW[qq])".data,
            White := extractCoords 'A' 'W' "(;AW[qq])".data } :=
  (C2_parse_error_iff.1 "(;AW[qq])".data).2 (Or.inr (Or.inl (by decide)))

/-- Claim C5: the black (resp. white) extraction collects exactly the
contiguous sequence of bracketed two-character groups immediately after
the marker, breaking at the first token that is not such a group: a
nonempty extraction decomposes the line as prefix, marker, the encoded
run, and a rest that does not start with a bracket group; conversely any
line of that shape (no earlier marker pair) extracts exactly that run;
and concretely the bracket group after a break is not collected. -/
theorem C5_run_breaks_at_first_nongroup :
    (∀ (line : Str) (cs : List Str),
      extractCoords 'A' 'B' line = cs → cs ≠ [] →
      ∃ u v, line = u ++ 'A' :: 'B' :: (encGroups cs ++ v) ∧
        startsGroup v = false ∧ validGroups cs = true) ∧
    (∀ (line : Str) (cs : List Str),
      extractCoords 'A' 'W' line = cs → cs ≠ [] →
      ∃ u v, line = u ++ 'A' :: 'W' :: (encGroups cs ++ v) ∧
        startsGroup v = false ∧ validGroups cs = true) ∧
    (∀ (u v : Str) (cs : List Str) (m1 m2 : Char),
      validGroups cs = true → cs ≠ [] → startsGroup v = false →
      noAdj m1 m2 (u ++ [m1]) = true →
      extractCoords m1 m2 (u ++ m1 :: m2 :: (encGroups cs ++ v)) = cs) ∧
    extractCoords 'A' 'B' "(;AB[cc]xx[dd])".data = ["cc".data] :=
  ⟨fun _ _ h hne => extractCoords_sound h hne,
   fun _ _ h hne => extractCoords_sound h hne,
   fun u v cs m1 m2 hval hne hv hu =>
     extractCoords_complete m1 m2 u v cs hval hne hv hu,
   by decide⟩

/-- Witness for C5: the completeness direction applied to a concrete line in
which bracket groups reappear after the break and are not collected. -/
theorem C5_run_breaks_witness :
    extractCoords 'A' 'B'
      ("(;".data ++ 'A' :: 'B' :: (encGroups ["cc".data, "cd".data] ++ "xx[dd])".data)) =
      ["cc".data, "cd".data] :=
  C5_run_breaks_at_first_nongroup.2.2.1 "(;".data "xx[dd])".data
    ["cc".data, "cd".data] 'A' 'B' (by decide) (by decide) (by decide) (by decide)

/-- Claim C9: caption extraction takes only the first occurrence of the comment
marker followed by a bracketed span, the title being the span content
verbatim up to the first closing bracket (no escaping): a found caption
decomposes the line with no earlier comment match, a line with two
caption-shaped spans yields the first with the second silently ignored,
concretely so on `(;C[one]C[two])`. -/
theorem C9_caption_first_match_only :
    (∀ (line cap : Str), reFind commentAt line = some cap →
      ∃ u v, line = u ++ 'C' :: '[' :: (cap ++ ']' :: v) ∧ noClose cap = true ∧
        ∀ w : Str, w ≠ [] → w <:+ u →
          commentAt (w ++ 'C' :: '[' :: (cap ++ ']' :: v)) = none) ∧
    (∀ (u cap1 mid cap2 v : Str),
      noClose cap1 = true → noAdj 'C' '[' (u ++ ['C']) = true →
      extractComment
        (u ++ 'C' :: '[' :: (cap1 ++ ']' ::
          (mid ++ 'C' :: '[' :: (cap2 ++ ']' :: v)))) = cap1) ∧
    extractComment "(;C[one]C[two])".data = "one".data := by
  refine ⟨fun _ _ h => extractComment_sound h, ?_, by decide⟩
  intro u cap1 mid cap2 v hc1 hu
  unfold extractComment
  rw [extractComment_complete u cap1 (mid ++ 'C' :: '[' :: (cap2 ++ ']' :: v)) hc1 hu]

/-- Witness for C9: the two-caption statement applied to concrete spans. -/
theorem C9_caption_first_match_only_witness :
    extractComment
      ("(;".data ++ 'C' :: '[' :: ("one".data ++ ']' ::
        ("xy".data ++ 'C' :: '[' :: ("two".data ++ ']' :: ")".data)))) = "one".data :=
  C9_caption_first_match_only.2.1 "(;".data "one".data "xy".data "two".data ")".data
    (by decide) (by decide)

/-- Claim C3: rendering never fails on coordinate decoding when every
coordinate of the problem is a two-character string with both characters
in a–s; for any problem containing a coordinate not of that shape the
render returns an error naming a bad coordinate and hands nothing to the
save, so no output file is written. -/
theorem C3_render_coord_validation :
    ∀ (p : GoProblem) (dir : Str) (bp mp : Int),
      ((∀ c ∈ p.Black, goodCoord c = true) →
        (∀ c ∈ p.White, goodCoord c = true) →
        ∃ path, RenderProblem p dir bp mp =
          { saved := some path, result := .ok path }) ∧
      ((∃ c, (c ∈ p.Black ∨ c ∈ p.White) ∧ goodCoord c = false) →
        ∃ e c, RenderProblem p dir bp mp =
            { saved := none, result := .error e } ∧
          (c ∈ p.Black ∨ c ∈ p.White) ∧ goodCoord c = false ∧
          (e = "invalid coord " ++ String.mk c ∨
           e = "coord out of range " ++ String.mk c)) := by
  intro p dir bp mp
  constructor
  · intro hb hw
    refine ⟨filepathJoin dir (sanitizeFilename p.Name ++ ".png".data), ?_⟩
    unfold RenderProblem
    rw [decodeStones_ok hb, decodeStones_ok hw]
  · intro hex
    obtain ⟨c, hmem, hbad⟩ := hex
    rcases hmem with hmem | hmem
    · obtain ⟨e, c2, he, hm2, hb2, hform⟩ := decodeStones_bad ⟨c, hmem, hbad⟩
      refine ⟨e, c2, ?_, Or.inl hm2, hb2, hform⟩
      unfold RenderProblem
      rw [he]
    · by_cases hba : ∃ cb ∈ p.Black, goodCoord cb = false
      · obtain ⟨e, c2, he, hm2, hb2, hform⟩ := decodeStones_bad hba
        refine ⟨e, c2, ?_, Or.inl hm2, hb2, hform⟩
        unfold RenderProblem
        rw [he]
      · have hgood : ∀ cb ∈ p.Black, goodCoord cb = true := by
          intro cb hcb
          by_contra hcon
          exact hba ⟨cb, hcb, by simpa using hcon⟩
        obtain ⟨e, c2, he, hm2, hb2, hform⟩ := decodeStones_bad ⟨c, hmem, hbad⟩
        refine ⟨e, c2, ?_, Or.inr hm2, hb2, hform⟩
        unfold RenderProblem
        rw [decodeStones_ok hgood, he]

/-- Witness for C3: both directions at concrete problems — an all-good
problem renders to its path, and a problem with the malformed white
coordinate `zz` errors without reaching the save. -/
theorem C3_render_coord_validation_witness :
    (∃ path,
      RenderProblem
        { Name := "TestX".data, Black := ["dd".data, "ee".data],
          White := ["cc".data] } "out".data 200 20 =
        { saved := some path, result := .ok path }) ∧
    (∃ e c,
      RenderProblem
        { Name := "T".data, Black := ["dd".data], White := ["zz".data] }
        "out".data 200 20 = { saved := none, result := .error e } ∧
        (c ∈ [("dd".data : Str)] ∨ c ∈ [("zz".data : Str)]) ∧
        goodCoord c = false ∧
        (e = "invalid coord " ++ String.mk c ∨
         e = "coord out of range " ++ String.mk c)) :=
  ⟨(C3_render_coord_validation
      { Name := "TestX".data, Black := ["dd".data, "ee".data],
        White := ["cc".data] } "out".data 200 20).1
      (by decide) (by decide),
   (C3_render_coord_validation
      { Name := "T".data, Black := ["dd".data], White := ["zz".data] }
      "out".data 200 20).2 ⟨"zz".data, Or.inr (by decide), by decide⟩⟩

/-- Counterexample for C4: the claim asserts that some parsable input line
yields a problem containing a coordinate the renderer then rejects; in
fact no coordinate of any parsed problem is ever rejected by
`sgfToIndex`, because the run pattern only admits `[a-s]{2}`. -/
theorem C4_counterexample :
    ¬ ∃ (line : Str) (prob : GoProblem) (c : Str) (e : String),
      ParseSGFLine line = .ok prob ∧ (c ∈ prob.Black ∨ c ∈ prob.White) ∧
        sgfToIndex c = .error e := by
  rintro ⟨line, prob, c, e, hok, hmem, herr⟩
  have hgood := ParseSGFLine_good_coords hok
  have hc : goodCoord c = true := by
    rcases hmem with h | h
    · exact hgood.1 c h
    · exact hgood.2 c h
  obtain ⟨x, y, hxy, _⟩ := sgfToIndex_isOk_of_good hc
  rw [hxy] at herr
  simp at herr

/-- Amended claim C4: an out-of-range index is indeed rejected at render
time — `sgfToIndex` accepts only columns and rows in [0, 18] — but
`ParseSGFLine`'s coordinate pattern admits only characters a–s, so every
coordinate of a parsed problem decodes successfully and the render-time
rejection never fires on parser output. -/
theorem C4_amended_range_check_unreachable :
    (∀ (s : Str) (x y : Int), sgfToIndex s = .ok (x, y) →
      0 ≤ x ∧ x ≤ 18 ∧ 0 ≤ y ∧ y ≤ 18) ∧
    (∀ (line : Str) (prob : GoProblem), ParseSGFLine line = .ok prob →
      ∀ c, (c ∈ prob.Black ∨ c ∈ prob.White) →
        ∃ x y : Int, sgfToIndex c = .ok (x, y)) := by
  constructor
  · intro s x y h
    by_cases hg : goodCoord s = true
    · obtain ⟨x2, y2, hxy, hb⟩ := sgfToIndex_isOk_of_good hg
      have hx : x2 = x ∧ y2 = y := by
        have h2 := hxy.symm.trans h
        simpa using h2
      obtain ⟨rfl, rfl⟩ := hx
      exact hb
    · obtain ⟨e, he, _⟩ := sgfToIndex_error_of_bad (by simpa using hg)
      rw [he] at h
      simp at h
  · intro line prob hok c hmem
    have hgood := ParseSGFLine_good_coords hok
    have hc : goodCoord c = true := by
      rcases hmem with h | h
      · exact hgood.1 c h
      · exact hgood.2 c h
    obtain ⟨x, y, hxy, _⟩ := sgfToIndex_isOk_of_good hc
    exact ⟨x, y, hxy⟩

/-- Witness for C4: the amended statement at the concrete coordinate `dd`
(both range bounds) and the concrete example line (its parsed coordinates
all decode). -/
theorem C4_amended_range_check_unreachable_witness :
    (0 ≤ (3 : Int) ∧ (3 : Int) ≤ 18 ∧ 0 ≤ (3 : Int) ∧ (3 : Int) ≤ 18) ∧
    (∃ x y : Int, sgfToIndex "cc".data = .ok (x, y)) :=
  ⟨C4_amended_range_check_unreachable.1 "dd".data 3 3 (by decide),
   C4_amended_range_check_unreachable.2 "(;AB[cc]C[t])".data
     { Name := "t".data, Black := ["cc".data], White := [] }
     (by decide) "cc".data (Or.inl (by decide))⟩

/-- Claim C6: loading a readable file of N scanned lines of which M fail to
parse appends exactly the successfully parsed problems in original file
order — N − M of them — never aborting on a malformed line; emptiness of
the result is not an error, and after consuming all lines the call
returns exactly the scanner's error, nil on a clean end of file. -/
theorem C6_load_counts_and_order :
    ∀ (prior : List GoProblem) (lines : List Str) (scanErr : Option String),
      (LoadProblemsScan prior ⟨lines, scanErr⟩).1 =
          prior ++ lines.filterMap (fun l => (ParseSGFLine l).toOption) ∧
      (LoadProblemsScan prior ⟨lines, scanErr⟩).1.length =
          prior.length + (lines.length - (lines.filter parseFails).length) ∧
      (LoadProblemsScan prior ⟨lines, scanErr⟩).2 = scanErr := by
  intro prior lines scanErr
  refine ⟨foldl_loadStep_filterMap lines prior, ?_, rfl⟩
  have h1 := foldl_loadStep_filterMap lines prior
  have h2 := filterMap_length_add lines
  have h3 : (lines.filter parseFails).length ≤ lines.length :=
    List.length_filter_le _ _
  show (lines.foldl loadStep prior).length = _
  rw [h1, List.length_append]
  omega

/-- Claim C10: `LoadProblems` only appends to the problems slice: whatever was
stored before the call is still there, unchanged and first, whether the
call returns cleanly or with an open or scan error. -/
theorem C10_load_only_appends :
    ∀ (prior : List GoProblem) (file : Except String FileScan),
      (LoadProblems prior file).1 = prior ++ (LoadProblems [] file).1 := by
  intro prior file
  cases file with
  | error e => simp [LoadProblems]
  | ok f =>
      show f.lines.foldl loadStep prior = prior ++ f.lines.foldl loadStep []
      calc f.lines.foldl loadStep prior
          = f.lines.foldl loadStep (prior ++ []) := by rw [List.append_nil]
        _ = prior ++ f.lines.foldl loadStep [] := foldl_loadStep_append _ prior []

/-- Claim C8: `sanitizeFilename` replaces every space with an underscore and
drops every character that is not an ASCII letter, digit, underscore or
hyphen, falling back to the literal `problem` when nothing remains; it is
idempotent; and `RenderProblem` names its output by appending `.png` to
the sanitized title and joining with the output directory. -/
theorem C8_sanitize_idempotent_naming :
    (∀ name : Str, sanitizeFilename name =
      (if name.filterMap sanitizeCharMap = [] then "problem".data
       else name.filterMap sanitizeCharMap)) ∧
    (∀ name : Str,
      sanitizeFilename (sanitizeFilename name) = sanitizeFilename name) ∧
    (∀ (p : GoProblem) (dir path : Str) (bp mp : Int),
      (RenderProblem p dir bp mp).result = .ok path →
      path = filepathJoin dir (sanitizeFilename p.Name ++ ".png".data)) := by
  refine ⟨sanitizeFilename_eq, sanitizeFilename_idem, ?_⟩
  intro p dir path bp mp h
  unfold RenderProblem at h
  cases hb : decodeStones p.Black with
  | error e =>
      rw [hb] at h
      simp at h
  | ok u =>
      rw [hb] at h
      cases hw : decodeStones p.White with
      | error e =>
          rw [hw] at h
          simp at h
      | ok u2 =>
          rw [hw] at h
          have h2 : filepathJoin dir (sanitizeFilename p.Name ++ ".png".data) = path := by
            simpa using h
          exact h2.symm

/-- Witness for C8: the naming statement at a concrete render whose title
needs both the space replacement and the character dropping. -/
theorem C8_sanitize_idempotent_naming_witness :
    "out/My_problem.png".data =
      filepathJoin "out".data
        (sanitizeFilename "My problem!".data ++ ".png".data) :=
  C8_sanitize_idempotent_naming.2.2
    { Name := "My problem!".data, Black := [], White := [] }
    "out".data "out/My_problem.png".data 200 20 (by decide)

end Barista

/-!
### Concrete scenarios

The concrete scenarios of the specification, evaluated on the model to
validate the embedding.
-/

example : Barista.ParseSGFLine "(;AB[cc][cd][dd]AW[dd][de]C[Example problem])".data =
    .ok { Name := "Example problem".data,
          Black := ["cc".data, "cd".data, "dd".data],
          White := ["dd".data, "de".data] } := by decide

example : Barista.ParseSGFLine "invalid line".data =
    .error "no SGF properties found in line" := by decide

example : Barista.ParseSGFLine "(;C[Reorder]AW[dd]AB[cc])".data =
    .ok { Name := "Reorder".data, Black := ["cc".data], White := ["dd".data] } := by decide

example : Barista.extractCoords 'A' 'B' "(;AB[cc]xx[dd])".data = ["cc".data] := by decide

example : Barista.sgfToIndex "dd".data = .ok (3, 3) := by decide

example : Barista.sgfToIndex "zz".data = .error "coord out of range zz" := by decide

example : Barista.sgfToIndex "d".data = .error "invalid coord d" := by decide

example : Barista.sanitizeFilename "Example problem".data = "Example_problem".data := by decide

example : Barista.sanitizeFilename "???".data = "problem".data := by decide

example :
    Barista.RenderProblem
      { Name := "TestX".data, Black := ["dd".data, "ee".data], White := ["cc".data] }
      "out".data 200 20 =
    { saved := some "out/TestX.png".data, result := .ok "out/TestX.png".data } := by decide

example :
    Barista.RenderProblem
      { Name := "T".data, Black := ["zz".data], White := [] } "out".data 200 20 =
    { saved := none, result := .error "coord out of range zz" } := by decide
